import Mathlib

/-!
Verification of the docling-mcp HTML structural-simplification engine
(`word_html_cleaner.py`, `htmlrag_cleaner.py`) against its specification.

The source operates on a BeautifulSoup tree.  We embed the tree shallowly:
a `Node` is an element (tag, attributes, children), a text node, a comment,
a processing instruction (`<?...>`) or a markup declaration (`<!...>`).
The last four are `NavigableString` subclasses in BeautifulSoup, i.e.
`isinstance(node, str)` holds for them; only `element` is a `Tag`.
Strings are modelled as `List Char` so that everything evaluates by `decide`.
-/

set_option maxRecDepth 8000

namespace DoclingClean

abbrev Str := List Char

/-- Shorthand turning a string literal into the `List Char` representation. -/
def S (s : String) : Str := s.data

inductive Node where
  | text (s : Str)
  | comment (s : Str)
  | pi (s : Str)
  | decl (s : Str)
  | element (tag : Str) (attrs : List (Str × Str)) (children : List Node)

/-- Children of a node; non-elements have none (`tag.contents`). -/
def childrenOf : Node → List Node
  | .element _ _ cs => cs
  | _ => []

/-- `isinstance(node, Tag)`: only elements are tags; every other node kind is a
`NavigableString`, a `str` subclass. -/
def isElement : Node → Bool
  | .element _ _ _ => true
  | _ => false

/-- Does the node carry the given element tag name? -/
def tagIs (t : Str) : Node → Bool
  | .element tag _ _ => tag == t
  | _ => false

mutual

/-- `node.get_text()`: concatenated text of all descendant text nodes, in
document order.  Comments, processing instructions and declarations are not
human-readable text and are excluded (BeautifulSoup ≥ 4.9 behaviour). -/
def textOf : Node → Str
  | .text s => s
  | .comment _ => []
  | .pi _ => []
  | .decl _ => []
  | .element _ _ cs => textOfList cs

def textOfList : List Node → Str
  | [] => []
  | n :: ns => textOf n ++ textOfList ns

end

mutual

/-- Structural equality test on nodes (used for the `removed` flag of the
fixed-point loops: a sweep changed nothing iff the tree is unchanged). -/
def beqN : Node → Node → Bool
  | .text s, .text t => s == t
  | .comment s, .comment t => s == t
  | .pi s, .pi t => s == t
  | .decl s, .decl t => s == t
  | .element t1 a1 c1, .element t2 a2 c2 => t1 == t2 && a1 == a2 && beqL c1 c2
  | _, _ => false

def beqL : List Node → List Node → Bool
  | [], [] => true
  | n :: ns, m :: ms => beqN n m && beqL ns ms
  | _, _ => false

end

mutual

/-- `node.find(pred)` over a subtree rooted at one node: test the node itself,
then its descendants in pre-order (document order). -/
def findInNode (p : Node → Bool) : Node → Option Node
  | .element t a cs =>
    if p (.element t a cs) then some (.element t a cs) else findInList p cs
  | n => if p n then some n else none

/-- `node.find(pred)` on BeautifulSoup searches the node's descendants:
children left to right, each followed by its own subtree (pre-order). -/
def findInList (p : Node → Bool) : List Node → Option Node
  | [] => none
  | n :: ns =>
    match findInNode p n with
    | some m => some m
    | none => findInList p ns

end

/-- `row.find_all(['td', 'th'], recursive=False)`: direct cell children. -/
def directCells (n : Node) : List Node :=
  (childrenOf n).filter (fun c => tagIs (S "td") c || tagIs (S "th") c)

/-! ### Model of the regular-expression scans in `contains_tabular_data_pattern`

`re.findall(r'\d+[.,]\d+|\d{3,}', text)` scans left to right for non-overlapping
matches, preferring the decimal alternative; `\d+` is greedy and `[.,]` can only
match a non-digit, so each alternative consumes maximal digit runs.  `\d` is
modelled as the ASCII digits (the inputs of interest are ASCII). -/

/-- Maximal leading run of digits. -/
def digitRun : Str → Str
  | [] => []
  | c :: cs => if c.isDigit then c :: digitRun cs else []

/-- One attempt of `\d+[.,]\d+|\d{3,}` anchored at the start of `s`; returns the
matched token and the remainder of the string after the match. -/
def tryNumberAt (s : Str) : Option (Str × Str) :=
  match digitRun s with
  | [] => none
  | d1 =>
    match s.drop d1.length with
    | sep :: r2 =>
      if (sep == '.' || sep == ',') && digitRun r2 != [] then
        some (d1 ++ sep :: digitRun r2, r2.drop (digitRun r2).length)
      else if 3 ≤ d1.length then some (d1, s.drop d1.length) else none
    | [] => if 3 ≤ d1.length then some (d1, []) else none

def findallNumbersAux : Nat → Str → List Str
  | 0, _ => []
  | _, [] => []
  | fuel + 1, c :: cs =>
    match tryNumberAt (c :: cs) with
    | some (tok, rest) => tok :: findallNumbersAux fuel rest
    | none => findallNumbersAux fuel cs

/-- `re.findall(r'\d+[.,]\d+|\d{3,}', s)`.  A match consumes at least one
character, so fuel `s.length` suffices. -/
def findallNumbers (s : Str) : List Str := findallNumbersAux s.length s

/-- Drop exactly `k` leading digits, or fail. -/
def dropDigits : Nat → Str → Option Str
  | 0, s => some s
  | _ + 1, [] => none
  | k + 1, c :: cs => if c.isDigit then dropDigits k cs else none

def sepCF (c : Char) : Bool := c == ':' || c == '/'

/-- `\d{1,2}[:/]\d{1,2}[:/]\d{2,4}` anchored at the start of `s`.  The bounded
groups backtrack over their lengths; the final `\d{2,4}` needs only two digits
since nothing follows it in the pattern. -/
def dateAt (s : Str) : Bool :=
  [1, 2].any fun l1 =>
    match dropDigits l1 s with
    | some (c1 :: r1) =>
      sepCF c1 &&
        [1, 2].any fun l2 =>
          match dropDigits l2 r1 with
          | some (c2 :: r2) => sepCF c2 && (dropDigits 2 r2).isSome
          | _ => false
    | _ => false

/-- `re.search(r'\d{1,2}[:/]\d{1,2}[:/]\d{2,4}', s)`: a match at some position. -/
def searchDate : Str → Bool
  | [] => false
  | c :: cs => dateAt (c :: cs) || searchDate cs

/-- `\d{1,2}:\d{2}:\d{2}` anchored at the start of `s`.  The exact `\d{2}`
groups cannot backtrack, so the character after them must be the separator. -/
def timeAt (s : Str) : Bool :=
  [1, 2].any fun l1 =>
    match dropDigits l1 s with
    | some (':' :: r1) =>
      match dropDigits 2 r1 with
      | some (':' :: r2) => (dropDigits 2 r2).isSome
      | _ => false
    | _ => false

/-- `re.search(r'\d{1,2}:\d{2}:\d{2}', s)`. -/
def searchTime : Str → Bool
  | [] => false
  | c :: cs => timeAt (c :: cs) || searchTime cs

/-- `re.search(r'(AM|PM)', s)` is a plain substring test. -/
def containsSub (pat : Str) : Str → Bool
  | [] => pat.isPrefixOf []
  | c :: cs => pat.isPrefixOf (c :: cs) || containsSub pat cs

/-! ### Table classifiers (`word_html_cleaner.py`) -/

/-- Rows used by `contains_tabular_data_pattern` (lines 115-118): the table's
direct `tr` children, unless `table.find('tbody')` — a recursive descendant
search — finds a `tbody`, in which case that tbody's direct `tr` children. -/
def rowsOfPattern (n : Node) : List Node :=
  match findInList (tagIs (S "tbody")) (childrenOf n) with
  | some tbody => (childrenOf tbody).filter (tagIs (S "tr"))
  | none => (childrenOf n).filter (tagIs (S "tr"))

/-- `contains_tabular_data_pattern(table)` (lines 85-131). -/
def contains_tabular_data_pattern (n : Node) : Bool :=
  -- Pattern 1: more than five numeric tokens in the table's full text
  if 5 < (findallNumbers (textOf n)).length then true
  -- Pattern 2: date/time patterns or AM/PM tokens
  else if searchDate (textOf n) || searchTime (textOf n)
      || containsSub (S "AM") (textOf n) || containsSub (S "PM") (textOf n) then true
  else
    -- Pattern 3: at least 3 rows with consistent per-row cell counts
    let rows := rowsOfPattern n
    if 3 ≤ rows.length &&
        (rows.map fun r => (directCells r).length).dedup.length ≤ 2 &&
        2 ≤ (rows.map fun r => (directCells r).length).foldl max 0 then true
    -- Pattern 4: a th header cell anywhere in the table
    else if (findInList (tagIs (S "th")) (childrenOf n)).isSome then true
    else false

/-- Rows used by `is_wrapper_table` (lines 50-54); the source duplicates the
row computation of `contains_tabular_data_pattern` verbatim. -/
def rowsOfWrapper (n : Node) : List Node :=
  match findInList (tagIs (S "tbody")) (childrenOf n) with
  | some tbody => (childrenOf tbody).filter (tagIs (S "tr"))
  | none => (childrenOf n).filter (tagIs (S "tr"))

/-- `is_wrapper_table(table)` (lines 36-82). -/
def is_wrapper_table (n : Node) : Bool :=
  let rows := rowsOfWrapper n
  -- Heuristic 1: no rows = wrapper
  if rows.length = 0 then true
  -- Heuristic 2: single row with at most a single cell
  else if rows.length = 1 && (directCells (rows.headD (.text []))).length ≤ 1 then true
  else
    -- Heuristic 3: every direct cell of the table contains a nested table
    let cells := directCells n
    if 0 < cells.length &&
        cells.all (fun c => (findInList (tagIs (S "table")) (childrenOf c)).isSome) then true
    else
      -- Heuristic 4: fewer than 4 cells and no tabular data patterns
      let total := (rows.map fun r => (directCells r).length).sum
      if total < 4 && !contains_tabular_data_pattern n then true
      -- Default: keep the table
      else false

example : findallNumbers (S "12,34.56 1.2.3 12a345 1234.5 123,abc 99") =
    [S "12,34", S "1.2", S "345", S "1234.5", S "123"] := by decide

example : searchDate (S "12/3/99") = true := by decide
example : searchDate (S "1:234:56") = false := by decide
example : searchTime (S "a123:45:67b") = true := by decide
example : searchTime (S "1:234:56") = false := by decide

/-! ### Rewrite passes -/

mutual

/-- Step 1 of `clean_word_html` / `simplify_html`: `soup(tags)` finds every
element with one of the given names, recursively, and `decompose`s it with its
whole subtree. -/
def removeNoiseN (noise : List Str) : Node → List Node
  | .element t a cs =>
    if noise.contains t then [] else [.element t a (removeNoiseL noise cs)]
  | n => [n]

def removeNoiseL (noise : List Str) : List Node → List Node
  | [] => []
  | n :: ns => removeNoiseN noise n ++ removeNoiseL noise ns

end

mutual

/-- Comment-removal pass: every `Comment` node is `extract`ed. -/
def removeCommentsN : Node → List Node
  | .comment _ => []
  | .element t a cs => [.element t a (removeCommentsL cs)]
  | n => [n]

def removeCommentsL : List Node → List Node
  | [] => []
  | n :: ns => removeCommentsN n ++ removeCommentsL ns

end

/-- Unwrapping of a direct `tbody`/`thead` child of a wrapper table
(`clean_word_html` lines 188-189). -/
def unwrapRowGroups (c : Node) : List Node :=
  if tagIs (S "tbody") c || tagIs (S "thead") c then childrenOf c else [c]

mutual

/-- Step 3 of `clean_word_html` (lines 177-192): all tables are collected and
processed deepest first; a table classified as a wrapper *in the current tree
state* has its direct `tbody`/`thead` children unwrapped and is then unwrapped
itself.  Nested tables have strictly larger `get_table_depth`, tables in
disjoint subtrees do not influence each other's classification, and Python's
sort is stable, so the deepest-first snapshot iteration is equivalent to this
innermost-first recursion; the second component counts unwrapped tables
(`wrapper_tables_removed`). -/
def processTablesN : Node → List Node × Nat
  | .element t a cs =>
    match processTablesL cs with
    | (cs', k1) =>
      if t == S "table" && is_wrapper_table (.element t a cs') then
        (cs'.flatMap unwrapRowGroups, k1 + 1)
      else ([.element t a cs'], k1)
  | n => ([n], 0)

def processTablesL : List Node → List Node × Nat
  | [] => ([], 0)
  | n :: ns =>
    match processTablesN n, processTablesL ns with
    | (n', k1), (ns', k2) => (n' ++ ns', k1 + k2)

end

mutual

/-- Apply an attribute transformation to every element of the tree
(`for tag in soup.find_all(True)`). -/
def mapAttrsN (f : Str → List (Str × Str) → List (Str × Str)) : Node → Node
  | .element t a cs => .element t (f t a) (mapAttrsL f cs)
  | n => n

def mapAttrsL (f : Str → List (Str × Str) → List (Str × Str)) : List Node → List Node
  | [] => []
  | n :: ns => mapAttrsN f n :: mapAttrsL f ns

end

/-- Href-removal pass: for every `a` element, delete an `href` attribute. -/
def stripHrefL : List Node → List Node :=
  mapAttrsL fun t a => if t == S "a" then a.filter (fun kv => kv.1 != S "href") else a

/-- `attrs_to_keep` of `clean_word_html` step 5 (lines 203-209): keep `colspan`
and `rowspan` when present, drop everything else. -/
def attrs_to_keep (a : List (Str × Str)) : List (Str × Str) :=
  (match a.lookup (S "colspan") with
   | some v => [(S "colspan", v)]
   | none => []) ++
  (match a.lookup (S "rowspan") with
   | some v => [(S "rowspan", v)]
   | none => [])

/-- `clean_word_html` step 5: `tag.attrs = attrs_to_keep`. -/
def stripAttrsWordL : List Node → List Node :=
  mapAttrsL fun _ a => attrs_to_keep a

/-- `simplify_html` attribute stripping (lines 39-41): `tag.attrs = {}`,
with no exception for `colspan`/`rowspan`. -/
def stripAttrsAllL : List Node → List Node :=
  mapAttrsL fun _ _ => []

/-- `concat_text`: remove every newline, tab and space character (the spec's
`normalize_for_comparison`). -/
def concat_text (s : Str) : Str :=
  s.filter fun c => !(c == '\n' || c == '\t' || c == ' ')

/-- `[child for child in tag.contents if not isinstance(child, str)]`:
`NavigableString` subclasses (text, comments, declarations) are `str`, so this
keeps exactly the element children. -/
def elemChildren (cs : List Node) : List Node := cs.filter isElement

/-- `''.join(child.get_text() for child in tag.contents if not isinstance(child, str))`. -/
def childText (cs : List Node) : Str := (elemChildren cs).flatMap textOf

/-- Collapse condition of the redundant-wrapper pass: exactly one element child
and the same whitespace-normalized text as the whole node. -/
def collapsible (cs : List Node) : Bool :=
  (elemChildren cs).length == 1 &&
    concat_text (childText cs) == concat_text (textOfList cs)

mutual

/-- Redundant-wrapper collapse (`clean_word_html` step 6 / `simplify_html`
lines 63-70).  The imperative loop runs over a pre-order `find_all()` snapshot
while mutating: each element is examined before any of its descendants, with
its original subtree intact, and `replace_with_children` splices its contents
in place; `skip` is the table-structure exemption of the Word variant (constant
`false` in `simplify_html`). -/
def collapseN (skip : Str → Bool) : Node → List Node
  | .element t a cs =>
    if skip t then [.element t a (collapseL skip cs)]
    else if collapsible cs then collapseL skip cs
    else [.element t a (collapseL skip cs)]
  | n => [n]

def collapseL (skip : Str → Bool) : List Node → List Node
  | [] => []
  | n :: ns => collapseN skip n ++ collapseL skip ns

end

/-- The whitespace characters of Python's `str.strip()`. -/
def pyWsChar (c : Char) : Bool :=
  c == ' ' || c == '\t' || c == '\n' || c == '\r' || c == '\x0b' || c == '\x0c'

/-- `not tag.text.strip()`: the visible text consists only of Python
whitespace. -/
def pyBlank (s : Str) : Bool := s.all pyWsChar

mutual

/-- One sweep of the empty-tag removal loop: scan the pre-order snapshot and
`decompose` every non-exempt element whose text is blank.  Removing a
blank-text subtree changes no other element's blankness, so the snapshot
iteration is equivalent to this recursion. -/
def sweepN (skip : Str → Bool) : Node → List Node
  | .element t a cs =>
    if !skip t && pyBlank (textOfList cs) then []
    else [.element t a (sweepL skip cs)]
  | n => [n]

def sweepL (skip : Str → Bool) : List Node → List Node
  | [] => []
  | n :: ns => sweepN skip n ++ sweepL skip ns

end

/-- The `while True` empty-tag loop: sweep until a full sweep removes nothing
(`removed` stays false exactly when the tree is unchanged, since a sweep only
removes nodes).  Each productive sweep strictly shrinks the tree, so the node
count bounds the number of iterations; the fuel makes that bound explicit. -/
def pruneLoop (skip : Str → Bool) : Nat → List Node → List Node
  | 0, t => t
  | fuel + 1, t =>
    let t' := sweepL skip t
    if beqL t' t then t else pruneLoop skip fuel t'

mutual

def sizeN : Node → Nat
  | .element _ _ cs => 1 + sizeL cs
  | _ => 1

def sizeL : List Node → Nat
  | [] => 0
  | n :: ns => sizeN n + sizeL ns

end

/-- The empty-tag fixed-point pass (`clean_word_html` step 7 / `simplify_html`
lines 44-51). -/
def prunePass (skip : Str → Bool) (ns : List Node) : List Node :=
  pruneLoop skip (sizeL ns + 1) ns

/-! ### Serialization (`str(soup)`) and string post-processing -/

/-- BeautifulSoup's minimal formatter escapes `&`, `<`, `>` in text nodes. -/
def escText (s : Str) : Str :=
  s.flatMap fun c =>
    if c == '&' then S "&amp;"
    else if c == '<' then S "&lt;"
    else if c == '>' then S "&gt;"
    else [c]

/-- Attribute values are additionally quoted, so `"` is escaped too. -/
def escAttrVal (s : Str) : Str :=
  s.flatMap fun c =>
    if c == '&' then S "&amp;"
    else if c == '<' then S "&lt;"
    else if c == '>' then S "&gt;"
    else if c == '"' then S "&quot;"
    else [c]

def renderAttrs (a : List (Str × Str)) : Str :=
  a.flatMap fun kv => ' ' :: (kv.1 ++ '=' :: '"' :: (escAttrVal kv.2 ++ ['"']))

mutual

/-- `str(soup)`: serialize the tree back to markup.  Comments, processing
instructions and declarations are emitted with their original delimiters. -/
def render : Node → Str
  | .text s => escText s
  | .comment s => S "<!--" ++ s ++ S "-->"
  | .pi s => S "<?" ++ s ++ ['>']
  | .decl s => S "<!" ++ s ++ ['>']
  | .element t a cs =>
    ('<' :: (t ++ renderAttrs a ++ ['>'])) ++ renderL cs ++ ('<' :: '/' :: (t ++ ['>']))

def renderL : List Node → Str
  | [] => []
  | n :: ns => render n ++ renderL ns

end

/-- Lazy tail of `.*?>` with `.` not matching a newline: consume up to the
first `>`, failing if a newline or the end of the string comes first. -/
def scanToGt : Str → Option Str
  | [] => none
  | c :: r => if c == '>' then some r else if c == '\n' then none else scanToGt r

def prefixMatches (pat : Str) (caseless : Bool) (s : Str) : Bool :=
  if caseless then (s.take pat.length).map Char.toLower == pat.map Char.toLower
  else s.take pat.length == pat

/-- A match of `pat.*?>` anchored at the start of `s` (with `re.IGNORECASE` on
the literal prefix when `caseless`); returns the remainder after the match. -/
def matchDeclAt (pat : Str) (caseless : Bool) (s : Str) : Option Str :=
  if prefixMatches pat caseless s then scanToGt (s.drop pat.length) else none

/-- `re.sub(pat + '.*?>', '', s)`: delete the leftmost non-overlapping matches
in one left-to-right scan, continuing after each match.  Every match consumes
at least one character, so fuel `s.length` suffices. -/
def reSubAux (pat : Str) (caseless : Bool) : Nat → Str → Str
  | 0, s => s
  | _, [] => []
  | fuel + 1, c :: cs =>
    match matchDeclAt pat caseless (c :: cs) with
    | some rest => reSubAux pat caseless fuel rest
    | none => c :: reSubAux pat caseless fuel cs

def reSubDecl (pat : Str) (caseless : Bool) (s : Str) : Str :=
  reSubAux pat caseless s.length s

/-- `clean_xml` / `clean_word_html` step 8: strip `<?xml ...?>` (case
sensitive) and `<!DOCTYPE ...>` (twice, case insensitive — the two source
lines 243-244 are identical in effect). -/
def cleanXmlStr (s : Str) : Str :=
  reSubDecl (S "<!doctype") true (reSubDecl (S "<!DOCTYPE") true (reSubDecl (S "<?xml") false s))

/-- `s.split("\n")`: Python semantics — `""` splits into `[""]`, a trailing
newline yields a trailing empty piece.  (`splitNl` never returns `[]`, so
prepending to the head piece is total.) -/
def splitNl : Str → List Str
  | [] => [[]]
  | c :: cs =>
    if c == '\n' then [] :: splitNl cs
    else (c :: (splitNl cs).headD []) :: (splitNl cs).tail

/-- `"\n".join(lines)`. -/
def joinNl : List Str → Str
  | [] => []
  | [l] => l
  | l :: l2 :: ls => l ++ '\n' :: joinNl (l2 :: ls)

/-- Step 9: keep the lines whose `strip()` is non-empty, rejoin with `"\n"`. -/
def dropBlankLines (s : Str) : Str :=
  joinNl ((splitNl s).filter fun l => !pyBlank l)

example : cleanXmlStr (S "<?x<?xml a>ml<?junk>") = S "<?xml<?junk>" := by decide
example : cleanXmlStr (S "x<!DOCTYPE html>y") = S "xy" := by decide
example : cleanXmlStr (S "<?xml\n?>") = S "<?xml\n?>" := by decide

/-! ### Parser model

Modelled from the spec: the upstream collaborator contract of §6 — a
permissive HTML parser (`BeautifulSoup(html, 'html.parser')`) producing the
mutable tree the engine operates on.  The parser itself is third-party
infrastructure, not part of this repository; this model covers the markup
fragment exercised here: open/close tags with quoted attributes, text,
comments `<!--...-->`, processing instructions `<?...>` (ending at the first
`>`), and declarations `<!...>` (ending at the first `>`, possibly spanning
newlines).  Tag and attribute names are taken verbatim (inputs use lowercase
names), character references are not expanded, and unmatched close tags are
ignored while unclosed tags absorb the remaining siblings, as `html.parser`
does. -/

inductive Tok where
  | tagOpenT (tag : Str) (attrs : List (Str × Str)) (selfClose : Bool)
  | tagCloseT (tag : Str)
  | textT (s : Str)
  | commentT (s : Str)
  | piT (s : Str)
  | declT (s : Str)

def isNameChar (c : Char) : Bool := c.isAlphanum || c == '-' || c == '_'

def takeName (s : Str) : Str := s.takeWhile isNameChar

/-- Split at the first occurrence of `stop`: the part before it and the part
after it (everything, and `[]`, when `stop` does not occur). -/
def splitAtChar (stop : Char) : Str → Str × Str
  | [] => ([], [])
  | c :: cs =>
    if c == stop then ([], cs)
    else
      match splitAtChar stop cs with
      | (before, after) => (c :: before, after)

/-- Split at the first occurrence of the substring `stop`. -/
def splitAtSub (stop : Str) : Str → Str × Str
  | [] => ([], [])
  | c :: cs =>
    if stop.isPrefixOf (c :: cs) then ([], (c :: cs).drop stop.length)
    else
      match splitAtSub stop cs with
      | (before, after) => (c :: before, after)

def dropWs : Str → Str
  | c :: cs => if pyWsChar c then dropWs cs else c :: cs
  | [] => []

/-- Attribute list of an open tag, up to and including the closing `>`.
Returns the attributes, whether the tag was self-closing (`/>`), and the rest
of the input. -/
def parseAttrsAux : Nat → Str → List (Str × Str) × Bool × Str
  | 0, s => ([], false, s)
  | fuel + 1, s =>
    match dropWs s with
    | [] => ([], false, [])
    | '>' :: r => ([], false, r)
    | '/' :: '>' :: r => ([], true, r)
    | s1 =>
      let name := takeName s1
      match s1.drop name.length with
      | '=' :: '"' :: r =>
        match splitAtChar '"' r with
        | (v, r2) =>
          match parseAttrsAux fuel r2 with
          | (attrs, sc, rest) => ((name, v) :: attrs, sc, rest)
      | '=' :: r =>
        let v := r.takeWhile fun c => !(c == ' ' || c == '>')
        match parseAttrsAux fuel (r.drop v.length) with
        | (attrs, sc, rest) => ((name, v) :: attrs, sc, rest)
      | s2 =>
        match parseAttrsAux fuel s2 with
        | (attrs, sc, rest) => ((name, []) :: attrs, sc, rest)

def tokenizeAux : Nat → Str → List Tok
  | 0, _ => []
  | _, [] => []
  | fuel + 1, '<' :: cs =>
    if (S "!--").isPrefixOf cs then
      match splitAtSub (S "-->") (cs.drop 3) with
      | (body, rest) => .commentT body :: tokenizeAux fuel rest
    else
      match cs with
      | '?' :: r =>
        match splitAtChar '>' r with
        | (body, rest) => .piT body :: tokenizeAux fuel rest
      | '!' :: r =>
        match splitAtChar '>' r with
        | (body, rest) => .declT body :: tokenizeAux fuel rest
      | '/' :: r =>
        let name := takeName r
        match splitAtChar '>' (r.drop name.length) with
        | (_, rest) => .tagCloseT name :: tokenizeAux fuel rest
      | c :: _ =>
        if c.isAlpha then
          let name := takeName cs
          match parseAttrsAux fuel (cs.drop name.length) with
          | (attrs, selfC, rest) => .tagOpenT name attrs selfC :: tokenizeAux fuel rest
        else .textT ['<'] :: tokenizeAux fuel cs
      | [] => [.textT ['<']]
  | fuel + 1, c :: cs =>
    let t := (c :: cs).takeWhile fun x => x != '<'
    .textT t :: tokenizeAux fuel ((c :: cs).drop t.length)

/-- Build the node forest from the token stream.  `stack` holds the open
enclosing tags: a close tag matching the innermost open tag ends the
current children list; one matching an outer tag is left for that level;
any other close tag is ignored. -/
def buildAux : Nat → List Tok → List Str → List Node × List Tok
  | 0, toks, _ => ([], toks)
  | _ + 1, [], _ => ([], [])
  | fuel + 1, tok :: rest, stack =>
    match tok with
    | .textT s =>
      match buildAux fuel rest stack with
      | (sibs, r) => (.text s :: sibs, r)
    | .commentT s =>
      match buildAux fuel rest stack with
      | (sibs, r) => (.comment s :: sibs, r)
    | .piT s =>
      match buildAux fuel rest stack with
      | (sibs, r) => (.pi s :: sibs, r)
    | .declT s =>
      match buildAux fuel rest stack with
      | (sibs, r) => (.decl s :: sibs, r)
    | .tagCloseT t =>
      if stack.head? == some t then ([], rest)
      else if stack.contains t then ([], tok :: rest)
      else buildAux fuel rest stack
    | .tagOpenT t attrs selfC =>
      if selfC then
        match buildAux fuel rest stack with
        | (sibs, r) => (.element t attrs [] :: sibs, r)
      else
        match buildAux fuel rest (t :: stack) with
        | (kids, rest1) =>
          match buildAux fuel rest1 stack with
          | (sibs, rest2) => (.element t attrs kids :: sibs, rest2)

def parseHtml (html : String) : List Node :=
  let toks := tokenizeAux (html.data.length + 1) html.data
  (buildAux ((toks.length + 1) * (toks.length + 1)) toks []).1

/-! ### Entry points -/

def tableStructureTags : List Str :=
  [S "table", S "tbody", S "thead", S "tr", S "td", S "th"]

/-- The table-structure exemption of `clean_word_html` steps 6 and 7. -/
def skipTableTags (t : Str) : Bool := tableStructureTags.contains t

/-- `simplify_html` exempts nothing. -/
def noSkip (_ : Str) : Bool := false

/-- Steps 1-7 of `clean_word_html` (the tree pipeline before serialization),
together with the `wrapper_tables_removed` counter. -/
def cleanWordTreeCount (ns : List Node) (keep_attr : Bool) : List Node × Nat :=
  let ns2 := removeCommentsL (removeNoiseL [S "script", S "style", S "meta", S "link"] ns)
  match processTablesL ns2 with
  | (ns3, removed) =>
    let ns5 := if keep_attr then stripHrefL ns3 else stripAttrsWordL (stripHrefL ns3)
    (prunePass skipTableTags (collapseL skipTableTags ns5), removed)

/-- `clean_word_html(html_content, keep_attr)` (lines 144-250); the Python
default for `keep_attr` is `True`. -/
def clean_word_html (html : String) (keep_attr : Bool) : String × Nat :=
  match cleanWordTreeCount (parseHtml html) keep_attr with
  | (ns, removed) => (String.mk (dropBlankLines (cleanXmlStr (renderL ns))), removed)

/-- `simplify_html(soup, keep_attr)` on the tree (lines 22-71), before
serialization: noise, attribute stripping, the empty-tag loop, href removal,
comment removal, and the redundant-wrapper sweep, in source order. -/
def simplifyTree (ns : List Node) (keep_attr : Bool) : List Node :=
  let ns2 :=
    if keep_attr then removeNoiseL [S "script", S "style"] ns
    else stripAttrsAllL (removeNoiseL [S "script", S "style"] ns)
  collapseL noSkip (removeCommentsL (stripHrefL (prunePass noSkip ns2)))

/-- `simplify_html` (lines 72-76): serialize and drop blank lines. -/
def simplify_html (ns : List Node) (keep_attr : Bool) : String :=
  String.mk (dropBlankLines (renderL (simplifyTree ns keep_attr)))

/-- `clean_xml(html)` (lines 79-84). -/
def clean_xml (s : String) : String := String.mk (cleanXmlStr s.data)

/-- `clean_html(html_content, keep_attr)` (lines 87-101): note that
`clean_xml` runs *after* `simplify_html`'s blank-line removal. -/
def clean_html (html : String) (keep_attr : Bool) : String :=
  clean_xml (simplify_html (parseHtml html) keep_attr)

mutual

def countTablesN : Node → Nat
  | .element t _ cs => (if t == S "table" then 1 else 0) + countTablesL cs
  | _ => 0

/-- `len(soup.find_all('table'))`. -/
def countTablesL : List Node → Nat
  | [] => 0
  | n :: ns => countTablesN n + countTablesL ns

end

mutual

def tableDepthsN (acc : Nat) : Node → List Nat
  | .element t _ cs =>
    if t == S "table" then acc :: tableDepthsL (acc + 1) cs else tableDepthsL acc cs
  | _ => []

/-- `get_table_nesting_depth` (lines 277-285) for every table of the forest:
the number of ancestor `table` elements of each `table`. -/
def tableDepthsL (acc : Nat) : List Node → List Nat
  | [] => []
  | n :: ns => tableDepthsN acc n ++ tableDepthsL acc ns

end

structure CleaningReport where
  original_size : Nat
  cleaned_size : Nat
  reduction_percent : ℚ
  original_tables : Nat
  cleaned_tables : Nat
  tables_removed : Int
  max_nesting_depth : Nat

/-- `analyze_cleaning(original_html, cleaned_html)` (lines 253-274).  The
reduction percent divides by `len(original_html)`; Python raises
`ZeroDivisionError` when that length is zero, modelled as `none`. -/
def analyze_cleaning (original_html cleaned_html : String) : Option CleaningReport :=
  let origTables := countTablesL (parseHtml original_html)
  let cleanTree := parseHtml cleaned_html
  let cleanTables := countTablesL cleanTree
  if original_html.length = 0 then none
  else some {
    original_size := original_html.length
    cleaned_size := cleaned_html.length
    reduction_percent :=
      ((original_html.length : ℚ) - (cleaned_html.length : ℚ)) / (original_html.length : ℚ) * 100
    original_tables := origTables
    cleaned_tables := cleanTables
    tables_removed := (origTables : Int) - (cleanTables : Int)
    max_nesting_depth := (tableDepthsL 0 cleanTree).foldl max 0 }

example : (clean_word_html "<div><p>a</p><span> </span></div>" true).1 = "<div><p>a</p></div>" := by
  decide

example : (clean_word_html "<div><p>a</p></div>" true).1 = "<p>a</p>" := by decide

example : clean_html "<a href=\"http://x\">link</a>" true = "<a>link</a>" := by decide

example : clean_html "<table><tr><td colspan=\"2\">x</td></tr></table>" false = "<td>x</td>" := by
  decide

example : clean_html "<p>a</p>\n<!DOCTYPE html>\n<p>b</p>" false = "<p>a</p>\n\n<p>b</p>" := by
  decide

example :
    (clean_word_html "<!-- c --><script>alert(1)</script><p>Text</p>" true).1 = "<p>Text</p>" := by
  decide

example :
    (clean_word_html
      "<table><tr><td><table><tr><td>1</td><td>2</td><td>3</td><td>4</td><td>5</td><td>6</td></tr></table></td></tr></table>"
      true).2 = 1 := by decide

/-! ### Claim-side definitions

These follow the wording of the specification / claims, to be compared with
the definitions translated from the source. -/

/-- Heuristics 3-5 of the claim C4 decision table (split out because
heuristic 2's "else" continues here for a single row with several cells). -/
def wrapperTailSpec (n : Node) (rows : List Node) : Bool :=
  if !(directCells n).isEmpty &&
      (directCells n).all (fun c => (findInList (tagIs (S "table")) (childrenOf c)).isSome) then
    true
  else if (rows.map fun r => (directCells r).length).sum < 4 &&
      !contains_tabular_data_pattern n then
    true
  else false

/-- The spec's reading of `is_wrapper_table` (§4.3 of the spec, claim C4):
a decision table evaluated in order, first match wins.  Written from the
claim's words: rows prefer a tbody's direct `tr` children; then (1) zero rows,
(2) exactly one row with at most one cell, (3) the table has direct cells and
every one contains a nested table, (4) fewer than 4 total cells and no tabular
data pattern; otherwise a data table, kept. -/
def wrapperDecisionSpec (n : Node) : Bool :=
  let rows :=
    match findInList (tagIs (S "tbody")) (childrenOf n) with
    | some tbody => (childrenOf tbody).filter (tagIs (S "tr"))
    | none => (childrenOf n).filter (tagIs (S "tr"))
  if rows.isEmpty then true
  else
    match rows with
    | [r] =>
      if (directCells r).length ≤ 1 then true
      else wrapperTailSpec n rows
    | _ => wrapperTailSpec n rows

/-- `is_wrapper_table` without heuristic 3, for claim C9: the decision table
with the every-direct-cell-contains-a-table branch removed. -/
def is_wrapper_table_noH3 (n : Node) : Bool :=
  let rows := rowsOfWrapper n
  if rows.length = 0 then true
  else if rows.length = 1 && (directCells (rows.headD (.text []))).length ≤ 1 then true
  else
    let total := (rows.map fun r => (directCells r).length).sum
    if total < 4 && !contains_tabular_data_pattern n then true
    else false

mutual

/-- Does the forest contain a redundant wrapper: a non-exempt element with
exactly one element child whose normalized text equals the element's own
normalized text (the collapse condition of step 6, claim C3)? -/
def hasRedundantN (skip : Str → Bool) : Node → Bool
  | .element t _ cs => (!skip t && collapsible cs) || hasRedundantL skip cs
  | _ => false

def hasRedundantL (skip : Str → Bool) : List Node → Bool
  | [] => false
  | n :: ns => hasRedundantN skip n || hasRedundantL skip ns

end

mutual

/-- Does the forest contain a non-exempt element whose visible text is blank
(the removal condition of the empty-tag loop, claim C6)? -/
def hasBlankElemN (skip : Str → Bool) : Node → Bool
  | .element t _ cs => (!skip t && pyBlank (textOfList cs)) || hasBlankElemL skip cs
  | _ => false

def hasBlankElemL (skip : Str → Bool) : List Node → Bool
  | [] => false
  | n :: ns => hasBlankElemN skip n || hasBlankElemL skip ns

end

mutual

/-- Does the forest consist solely of table-structure elements and
non-element nodes (claim C6's amended "never removed directly")? -/
def allTableStructN : Node → Bool
  | .element t _ cs => skipTableTags t && allTableStructL cs
  | _ => true

def allTableStructL : List Node → Bool
  | [] => true
  | n :: ns => allTableStructN n && allTableStructL ns

end

mutual

/-- All elements of the forest, in document order (`soup.find_all(True)`). -/
def allElemsN : Node → List Node
  | .element t a cs => .element t a cs :: allElemsL cs
  | _ => []

def allElemsL : List Node → List Node
  | [] => []
  | n :: ns => allElemsN n ++ allElemsL ns

end

/-! ### Proof infrastructure -/

/-- Induction over a node with the inductive hypothesis at every child. -/
theorem nodeInd {P : Node → Prop} (htext : ∀ s, P (.text s)) (hcom : ∀ s, P (.comment s))
    (hpi : ∀ s, P (.pi s)) (hdecl : ∀ s, P (.decl s))
    (helem : ∀ t a cs, (∀ c ∈ cs, P c) → P (.element t a cs)) : ∀ n, P n
  | .text s => htext s
  | .comment s => hcom s
  | .pi s => hpi s
  | .decl s => hdecl s
  | .element t a cs => helem t a cs fun c hc => @nodeInd P htext hcom hpi hdecl helem c
termination_by n => sizeOf n
decreasing_by
  have h := List.sizeOf_lt_of_mem hc
  simp only [Node.element.sizeOf_spec]
  omega

theorem beqN_sound : ∀ n m, beqN n m = true → n = m := by
  intro n
  induction n using nodeInd with
  | htext s => intro m h; cases m <;> simp only [beqN] at h <;> simp_all
  | hcom s => intro m h; cases m <;> simp only [beqN] at h <;> simp_all
  | hpi s => intro m h; cases m <;> simp only [beqN] at h <;> simp_all
  | hdecl s => intro m h; cases m <;> simp only [beqN] at h <;> simp_all
  | helem t a cs ih =>
    intro m h
    cases m with
    | element t2 a2 c2 =>
      simp only [beqN, Bool.and_eq_true, beq_iff_eq] at h
      obtain ⟨⟨ht, ha⟩, hc⟩ := h
      subst ht; subst ha
      congr 1
      clear a t
      induction cs generalizing c2 with
      | nil => cases c2 <;> simp_all [beqL]
      | cons x xs ihl =>
        cases c2 with
        | nil => simp [beqL] at hc
        | cons y ys =>
          simp only [beqL, Bool.and_eq_true] at hc
          have hx := ih x (List.mem_cons_self x xs) y hc.1
          have hxs := ihl (fun c hcc => ih c (List.mem_cons_of_mem x hcc)) ys hc.2
          rw [hx, hxs]
    | text s => simp [beqN] at h
    | comment s => simp [beqN] at h
    | pi s => simp [beqN] at h
    | decl s => simp [beqN] at h

theorem beqL_sound : ∀ xs ys, beqL xs ys = true → xs = ys := by
  intro xs
  induction xs with
  | nil => intro ys h; cases ys <;> simp_all [beqL]
  | cons x xs ih =>
    intro ys h
    cases ys with
    | nil => simp [beqL] at h
    | cons y ys =>
      simp only [beqL, Bool.and_eq_true] at h
      rw [beqN_sound x y h.1, ih ys h.2]

theorem textOfList_append (xs ys : List Node) :
    textOfList (xs ++ ys) = textOfList xs ++ textOfList ys := by
  induction xs with
  | nil => simp [textOfList]
  | cons n ns ih => simp [textOfList, ih]

theorem concat_text_append (a b : Str) : concat_text (a ++ b) = concat_text a ++ concat_text b :=
  List.filter_append _ _

theorem elemChildren_append (xs ys : List Node) :
    elemChildren (xs ++ ys) = elemChildren xs ++ elemChildren ys :=
  List.filter_append _ _

theorem childText_append (xs ys : List Node) :
    childText (xs ++ ys) = childText xs ++ childText ys := by
  simp [childText, elemChildren_append]

/-! ### The collapse pass reaches its own fixed point in one sweep

Collapsing an element splices its contents in place; this preserves the
visible text exactly, preserves every other element's number of element
children, and preserves the `concat_text`-normalized child text.  Hence the
collapse condition of every surviving element is unchanged, and the single
pre-order sweep of the source leaves no collapsible element behind. -/

theorem collapse_textL (skip : Str → Bool) :
    ∀ n, textOfList (collapseN skip n) = textOf n := by
  intro n
  induction n using nodeInd with
  | htext s => simp [collapseN, textOfList, textOf]
  | hcom s => simp [collapseN, textOfList, textOf]
  | hpi s => simp [collapseN, textOfList, textOf]
  | hdecl s => simp [collapseN, textOfList, textOf]
  | helem t a cs ih =>
    have hlist : textOfList (collapseL skip cs) = textOfList cs := by
      clear a t
      induction cs with
      | nil => rfl
      | cons x xs ihl =>
        simp only [collapseL, textOfList_append, textOfList]
        rw [ih x (List.mem_cons_self x xs),
          ihl (fun c hcc => ih c (List.mem_cons_of_mem x hcc))]
    simp only [collapseN]
    split
    · simp [textOfList, textOf, hlist]
    · split
      · simpa [textOf] using hlist
      · simp [textOfList, textOf, hlist]

theorem collapse_textLL (skip : Str → Bool) (ns : List Node) :
    textOfList (collapseL skip ns) = textOfList ns := by
  induction ns with
  | nil => rfl
  | cons n ns ih =>
    simp only [collapseL, textOfList_append, textOfList, collapse_textL, ih]

theorem collapsible_one (cs : List Node) (h : collapsible cs = true) :
    (elemChildren cs).length = 1 := by
  simp only [collapsible, Bool.and_eq_true, beq_iff_eq] at h
  exact h.1

theorem collapse_elemCount (skip : Str → Bool) :
    ∀ n, (elemChildren (collapseN skip n)).length = (elemChildren [n]).length := by
  intro n
  induction n using nodeInd with
  | htext s => simp [collapseN]
  | hcom s => simp [collapseN]
  | hpi s => simp [collapseN]
  | hdecl s => simp [collapseN]
  | helem t a cs ih =>
    have hlist : (elemChildren (collapseL skip cs)).length = (elemChildren cs).length := by
      clear a t
      induction cs with
      | nil => rfl
      | cons x xs ihl =>
        have hx := ih x (List.mem_cons_self x xs)
        have hxs := ihl (fun c hcc => ih c (List.mem_cons_of_mem x hcc))
        simp only [collapseL, elemChildren_append, List.length_append, hx, hxs]
        have : elemChildren (x :: xs) = elemChildren [x] ++ elemChildren xs := by
          simpa using elemChildren_append [x] xs
        simp [this]
    simp only [collapseN]
    split
    · simp [elemChildren, isElement]
    · split
      · rename_i hc
        rw [hlist, collapsible_one cs hc]
        simp [elemChildren, isElement]
      · simp [elemChildren, isElement]

theorem collapse_elemCountL (skip : Str → Bool) (ns : List Node) :
    (elemChildren (collapseL skip ns)).length = (elemChildren ns).length := by
  induction ns with
  | nil => rfl
  | cons n ns ih =>
    have : elemChildren (n :: ns) = elemChildren [n] ++ elemChildren ns := by
      simpa using elemChildren_append [n] ns
    simp only [collapseL, elemChildren_append, List.length_append, ih, collapse_elemCount, this]

theorem collapse_childText (skip : Str → Bool) :
    ∀ n, concat_text (childText (collapseN skip n)) = concat_text (childText [n]) := by
  intro n
  induction n using nodeInd with
  | htext s => simp [collapseN]
  | hcom s => simp [collapseN]
  | hpi s => simp [collapseN]
  | hdecl s => simp [collapseN]
  | helem t a cs ih =>
    have hlist : concat_text (childText (collapseL skip cs)) = concat_text (childText cs) := by
      clear a t
      induction cs with
      | nil => rfl
      | cons x xs ihl =>
        have hx := ih x (List.mem_cons_self x xs)
        have hxs := ihl (fun c hcc => ih c (List.mem_cons_of_mem x hcc))
        have hsplit : childText (x :: xs) = childText [x] ++ childText xs := by
          simpa using childText_append [x] xs
        simp only [collapseL, childText_append, concat_text_append, hx, hxs, hsplit]
    have hone : childText [.element t a cs] = textOfList cs := by
      simp [childText, elemChildren, isElement, textOf]
    simp only [collapseN]
    split
    · simp only [hone]
      simp [childText, elemChildren, isElement, textOf, collapse_textLL]
    · split
      · rename_i hc
        rw [hlist, hone]
        simp only [collapsible, Bool.and_eq_true, beq_iff_eq] at hc
        exact hc.2
      · simp only [hone]
        simp [childText, elemChildren, isElement, textOf, collapse_textLL]

theorem collapse_childTextL (skip : Str → Bool) (ns : List Node) :
    concat_text (childText (collapseL skip ns)) = concat_text (childText ns) := by
  induction ns with
  | nil => rfl
  | cons n ns ih =>
    have hsplit : childText (n :: ns) = childText [n] ++ childText ns := by
      simpa using childText_append [n] ns
    simp only [collapseL, childText_append, concat_text_append, ih, collapse_childText, hsplit]

/-- The collapse condition of an element is invariant under collapsing inside
its children. -/
theorem collapsible_collapse (skip : Str → Bool) (cs : List Node) :
    collapsible (collapseL skip cs) = collapsible cs := by
  simp only [collapsible, collapse_elemCountL, collapse_childTextL, collapse_textLL]

theorem hasRedundantL_append (skip : Str → Bool) (xs ys : List Node) :
    hasRedundantL skip (xs ++ ys) = (hasRedundantL skip xs || hasRedundantL skip ys) := by
  induction xs with
  | nil => simp [hasRedundantL]
  | cons x xs ih => simp [hasRedundantL, ih, Bool.or_assoc]

theorem collapse_noRedundant (skip : Str → Bool) :
    ∀ n, hasRedundantL skip (collapseN skip n) = false := by
  intro n
  induction n using nodeInd with
  | htext s => simp [collapseN, hasRedundantL, hasRedundantN]
  | hcom s => simp [collapseN, hasRedundantL, hasRedundantN]
  | hpi s => simp [collapseN, hasRedundantL, hasRedundantN]
  | hdecl s => simp [collapseN, hasRedundantL, hasRedundantN]
  | helem t a cs ih =>
    have hlist : hasRedundantL skip (collapseL skip cs) = false := by
      clear a t
      induction cs with
      | nil => rfl
      | cons x xs ihl =>
        have hx := ih x (List.mem_cons_self x xs)
        have hxs := ihl (fun c hcc => ih c (List.mem_cons_of_mem x hcc))
        simp [collapseL, hasRedundantL_append, hx, hxs]
    simp only [collapseN]
    split
    · rename_i hskip
      simp [hasRedundantL, hasRedundantN, hskip, hlist]
    · split
      · exact hlist
      · rename_i hskip hc
        simp only [hasRedundantL, hasRedundantN, hlist, Bool.or_false]
        rw [collapsible_collapse]
        simp [hc]

theorem collapse_noRedundantL (skip : Str → Bool) (ns : List Node) :
    hasRedundantL skip (collapseL skip ns) = false := by
  induction ns with
  | nil => rfl
  | cons n ns ih => simp [collapseL, hasRedundantL_append, collapse_noRedundant, ih]

/-- A forest with no redundant wrapper is untouched by the collapse sweep. -/
theorem collapse_of_noRedundant (skip : Str → Bool) :
    ∀ n, hasRedundantN skip n = false → collapseN skip n = [n] := by
  intro n
  induction n using nodeInd with
  | htext s => intro _; simp [collapseN]
  | hcom s => intro _; simp [collapseN]
  | hpi s => intro _; simp [collapseN]
  | hdecl s => intro _; simp [collapseN]
  | helem t a cs ih =>
    intro h
    simp only [hasRedundantN, Bool.or_eq_false_iff, Bool.and_eq_false_iff] at h
    have hlist : collapseL skip cs = cs := by
      have hsub := h.2
      clear h a t
      induction cs with
      | nil => rfl
      | cons x xs ihl =>
        simp only [hasRedundantL, Bool.or_eq_false_iff] at hsub
        have hx := ih x (List.mem_cons_self x xs) hsub.1
        have hxs := ihl (fun c hcc => ih c (List.mem_cons_of_mem x hcc)) hsub.2
        simp [collapseL, hx, hxs]
    simp only [collapseN, hlist]
    rcases h.1 with hskip | hcol
    · have hs : skip t = true := by simpa using hskip
      simp [hs]
    · by_cases hs : skip t = true
      · simp [hs]
      · simp [hs, hcol]

theorem collapse_of_noRedundantL (skip : Str → Bool) (ns : List Node)
    (h : hasRedundantL skip ns = false) : collapseL skip ns = ns := by
  induction ns with
  | nil => rfl
  | cons n ns ih =>
    simp only [hasRedundantL, Bool.or_eq_false_iff] at h
    simp [collapseL, collapse_of_noRedundant skip n (by simp [h.1]), ih h.2]

/-! ### The empty-tag loop

Removing a blank-text subtree deletes only whitespace from every ancestor's
visible text, so no other element's blankness changes: a single sweep already
removes every blank element, the next sweep removes nothing, and the
`while True` loop exits after it. -/

/-- The non-whitespace characters of a string (what `strip()` leaves other
than at the edges). -/
def nonWs (s : Str) : Str := s.filter fun c => !pyWsChar c

theorem pyBlank_iff_nonWs (s : Str) : pyBlank s = true ↔ nonWs s = [] := by
  induction s with
  | nil => simp [pyBlank, nonWs]
  | cons c cs ih =>
    by_cases hc : pyWsChar c = true
    · simpa [pyBlank, nonWs, List.all_cons, List.filter_cons, hc] using ih
    · have hc' : pyWsChar c = false := by simpa using hc
      simp [pyBlank, nonWs, List.all_cons, List.filter_cons, hc']

theorem nonWs_append (a b : Str) : nonWs (a ++ b) = nonWs a ++ nonWs b :=
  List.filter_append _ _

theorem sweep_nonWs (skip : Str → Bool) :
    ∀ n, nonWs (textOfList (sweepN skip n)) = nonWs (textOf n) := by
  intro n
  induction n using nodeInd with
  | htext s => simp [sweepN, textOfList, textOf]
  | hcom s => simp [sweepN, textOfList, textOf]
  | hpi s => simp [sweepN, textOfList, textOf]
  | hdecl s => simp [sweepN, textOfList, textOf]
  | helem t a cs ih =>
    have hlist : nonWs (textOfList (sweepL skip cs)) = nonWs (textOfList cs) := by
      clear a t
      induction cs with
      | nil => rfl
      | cons x xs ihl =>
        simp only [sweepL, textOfList_append, textOfList, nonWs_append]
        rw [ih x (List.mem_cons_self x xs),
          ihl (fun c hcc => ih c (List.mem_cons_of_mem x hcc))]
    simp only [sweepN]
    split
    · rename_i hdrop
      simp only [Bool.and_eq_true] at hdrop
      have he : nonWs (textOfList cs) = [] := (pyBlank_iff_nonWs _).mp hdrop.2
      simp only [textOfList, textOf]
      rw [he]
      rfl
    · simp [textOfList, textOf, hlist]

theorem sweep_nonWsL (skip : Str → Bool) (ns : List Node) :
    nonWs (textOfList (sweepL skip ns)) = nonWs (textOfList ns) := by
  induction ns with
  | nil => rfl
  | cons n ns ih =>
    simp only [sweepL, textOfList_append, textOfList, nonWs_append, sweep_nonWs, ih]

/-- Blankness of an element's visible text is invariant under sweeping its
subtree. -/
theorem pyBlank_sweep (skip : Str → Bool) (ns : List Node) :
    pyBlank (textOfList (sweepL skip ns)) = pyBlank (textOfList ns) := by
  by_cases h : pyBlank (textOfList ns) = true
  · rw [h]
    rw [pyBlank_iff_nonWs, sweep_nonWsL, ← pyBlank_iff_nonWs]
    exact h
  · simp only [Bool.not_eq_true] at h
    rw [h]
    rw [← Bool.not_eq_true, pyBlank_iff_nonWs, sweep_nonWsL, ← pyBlank_iff_nonWs,
      Bool.not_eq_true]
    exact h

theorem hasBlankElemL_append (skip : Str → Bool) (xs ys : List Node) :
    hasBlankElemL skip (xs ++ ys) = (hasBlankElemL skip xs || hasBlankElemL skip ys) := by
  induction xs with
  | nil => simp [hasBlankElemL]
  | cons x xs ih => simp [hasBlankElemL, ih, Bool.or_assoc]

theorem sweep_noBlank (skip : Str → Bool) :
    ∀ n, hasBlankElemL skip (sweepN skip n) = false := by
  intro n
  induction n using nodeInd with
  | htext s => simp [sweepN, hasBlankElemL, hasBlankElemN]
  | hcom s => simp [sweepN, hasBlankElemL, hasBlankElemN]
  | hpi s => simp [sweepN, hasBlankElemL, hasBlankElemN]
  | hdecl s => simp [sweepN, hasBlankElemL, hasBlankElemN]
  | helem t a cs ih =>
    have hlist : hasBlankElemL skip (sweepL skip cs) = false := by
      clear a t
      induction cs with
      | nil => rfl
      | cons x xs ihl =>
        simp [sweepL, hasBlankElemL_append, ih x (List.mem_cons_self x xs),
          ihl (fun c hcc => ih c (List.mem_cons_of_mem x hcc))]
    simp only [sweepN]
    split
    · simp [hasBlankElemL]
    · rename_i hkeep
      simp only [Bool.and_eq_true, not_and, Bool.not_eq_true] at hkeep
      simp only [hasBlankElemL, hasBlankElemN, hlist, Bool.or_false]
      rw [pyBlank_sweep]
      by_cases hs : skip t = true
      · simp [hs]
      · have : (!skip t) = true := by simp [hs]
        simp [this, hkeep this]

theorem sweep_noBlankL (skip : Str → Bool) (ns : List Node) :
    hasBlankElemL skip (sweepL skip ns) = false := by
  induction ns with
  | nil => rfl
  | cons n ns ih => simp [sweepL, hasBlankElemL_append, sweep_noBlank, ih]

/-- A forest with no blank non-exempt element is untouched by a sweep. -/
theorem sweep_of_noBlank (skip : Str → Bool) :
    ∀ n, hasBlankElemN skip n = false → sweepN skip n = [n] := by
  intro n
  induction n using nodeInd with
  | htext s => intro _; simp [sweepN]
  | hcom s => intro _; simp [sweepN]
  | hpi s => intro _; simp [sweepN]
  | hdecl s => intro _; simp [sweepN]
  | helem t a cs ih =>
    intro h
    simp only [hasBlankElemN, Bool.or_eq_false_iff, Bool.and_eq_false_iff] at h
    have hlist : sweepL skip cs = cs := by
      have hsub := h.2
      clear h a t
      induction cs with
      | nil => rfl
      | cons x xs ihl =>
        simp only [hasBlankElemL, Bool.or_eq_false_iff] at hsub
        have hx := ih x (List.mem_cons_self x xs) hsub.1
        have hxs := ihl (fun c hcc => ih c (List.mem_cons_of_mem x hcc)) hsub.2
        simp [sweepL, hx, hxs]
    simp only [sweepN, hlist]
    rcases h.1 with hskip | hblank
    · simp [hskip]
    · simp [hblank]

theorem sweep_of_noBlankL (skip : Str → Bool) (ns : List Node)
    (h : hasBlankElemL skip ns = false) : sweepL skip ns = ns := by
  induction ns with
  | nil => rfl
  | cons n ns ih =>
    simp only [hasBlankElemL, Bool.or_eq_false_iff] at h
    simp [sweepL, sweep_of_noBlank skip n h.1, ih h.2]

/-- One sweep reaches the fixed point of the empty-tag loop. -/
theorem sweep_idem (skip : Str → Bool) (ns : List Node) :
    sweepL skip (sweepL skip ns) = sweepL skip ns :=
  sweep_of_noBlankL skip _ (sweep_noBlankL skip ns)

/-- The `while True` loop computes exactly one sweep, for any positive fuel. -/
theorem pruneLoop_eq_sweep (skip : Str → Bool) :
    ∀ fuel t, pruneLoop skip (fuel + 1) t = sweepL skip t := by
  intro fuel
  induction fuel with
  | zero =>
    intro t
    show (if beqL (sweepL skip t) t then t else pruneLoop skip 0 (sweepL skip t)) = sweepL skip t
    split
    · rename_i hbeq
      exact (beqL_sound _ _ hbeq).symm
    · rfl
  | succ f ih =>
    intro t
    show (if beqL (sweepL skip t) t then t else pruneLoop skip (f + 1) (sweepL skip t)) =
      sweepL skip t
    split
    · rename_i hbeq
      exact (beqL_sound _ _ hbeq).symm
    · rw [ih (sweepL skip t), sweep_idem]

theorem prunePass_eq_sweep (skip : Str → Bool) (ns : List Node) :
    prunePass skip ns = sweepL skip ns :=
  pruneLoop_eq_sweep skip (sizeL ns) ns

/-- A forest built only of table-structure elements and non-element nodes is
returned unchanged by the prune pass: the sweep never examines an exempt tag. -/
theorem sweep_of_allTableStruct :
    ∀ n, allTableStructN n = true → sweepN skipTableTags n = [n] := by
  intro n
  induction n using nodeInd with
  | htext s => intro _; simp [sweepN]
  | hcom s => intro _; simp [sweepN]
  | hpi s => intro _; simp [sweepN]
  | hdecl s => intro _; simp [sweepN]
  | helem t a cs ih =>
    intro h
    simp only [allTableStructN, Bool.and_eq_true] at h
    have hlist : sweepL skipTableTags cs = cs := by
      have hsub := h.2
      clear h a
      induction cs with
      | nil => rfl
      | cons x xs ihl =>
        simp only [allTableStructL, Bool.and_eq_true] at hsub
        have hx := ih x (List.mem_cons_self x xs) hsub.1
        have hxs := ihl (fun c hcc => ih c (List.mem_cons_of_mem x hcc)) hsub.2
        simp [sweepL, hx, hxs]
    simp [sweepN, hlist, h.1]

theorem sweep_of_allTableStructL (ns : List Node) (h : allTableStructL ns = true) :
    sweepL skipTableTags ns = ns := by
  induction ns with
  | nil => rfl
  | cons n ns ih =>
    simp only [allTableStructL, Bool.and_eq_true] at h
    simp [sweepL, sweep_of_allTableStruct n h.1, ih h.2]

/-! ### Lines of the post-processed output -/

theorem splitNl_ne_nil (s : Str) : splitNl s ≠ [] := by
  induction s with
  | nil => simp [splitNl]
  | cons c cs _ =>
    simp only [splitNl]
    split
    · simp
    · simp

theorem mem_splitNl_no_newline (s : Str) : ∀ l ∈ splitNl s, '\n' ∉ l := by
  induction s with
  | nil => intro l hl; simp [splitNl] at hl; simp [hl]
  | cons c cs ih =>
    intro l hl
    simp only [splitNl] at hl
    by_cases hc : (c == '\n') = true
    · rw [if_pos hc] at hl
      rcases List.mem_cons.mp hl with h | h
      · simp [h]
      · exact ih l h
    · rw [if_neg (by simpa using hc)] at hl
      rcases List.mem_cons.mp hl with h | h
      · subst h
        intro hmem
        rcases List.mem_cons.mp hmem with h2 | h2
        · exact (by simpa using hc : ¬c = '\n') h2.symm
        · have hhead : (splitNl cs).headD [] ∈ splitNl cs := by
            cases hsp : splitNl cs with
            | nil => exact absurd hsp (splitNl_ne_nil cs)
            | cons a as => simp
          exact ih _ hhead h2
      · exact ih l (List.mem_of_mem_tail h)

theorem splitNl_no_newline (l : Str) (h : '\n' ∉ l) : splitNl l = [l] := by
  induction l with
  | nil => rfl
  | cons c cs ih =>
    simp only [List.mem_cons, not_or] at h
    have hc : (c == '\n') = false := by
      simp only [beq_eq_false_iff_ne, ne_eq]
      exact fun hh => h.1 hh.symm
    simp [splitNl, hc, ih h.2]

theorem splitNl_append_newline (l r : Str) (h : '\n' ∉ l) :
    splitNl (l ++ '\n' :: r) = l :: splitNl r := by
  induction l with
  | nil => simp [splitNl]
  | cons c cs ih =>
    simp only [List.mem_cons, not_or] at h
    have hc : (c == '\n') = false := by
      simp only [beq_eq_false_iff_ne, ne_eq]
      exact fun hh => h.1 hh.symm
    simp [splitNl, hc, ih h.2]

theorem splitNl_joinNl : ∀ ls : List Str, ls ≠ [] → (∀ l ∈ ls, '\n' ∉ l) →
    splitNl (joinNl ls) = ls := by
  intro ls
  induction ls with
  | nil => intro h; exact absurd rfl h
  | cons l ls ih =>
    intro _ hmem
    cases ls with
    | nil =>
      simp only [joinNl]
      exact splitNl_no_newline l (hmem l (List.mem_cons_self l []))
    | cons l2 ls2 =>
      simp only [joinNl]
      rw [splitNl_append_newline l _ (hmem l (List.mem_cons_self l _))]
      rw [ih (by simp) (fun x hx => hmem x (List.mem_cons_of_mem l hx))]

/-- Either the post-processed string is empty, or every one of its lines has
non-blank content. -/
theorem dropBlankLines_lines (s : Str) :
    dropBlankLines s = [] ∨ ∀ l ∈ splitNl (dropBlankLines s), pyBlank l = false := by
  unfold dropBlankLines
  cases h : (splitNl s).filter (fun l => !pyBlank l) with
  | nil => exact Or.inl rfl
  | cons l0 ls0 =>
    right
    rw [← h]
    have hnl : ∀ l ∈ (splitNl s).filter (fun l => !pyBlank l), '\n' ∉ l := fun l hl =>
      mem_splitNl_no_newline s l (List.mem_of_mem_filter hl)
    rw [splitNl_joinNl _ (by rw [h]; simp) hnl]
    intro l hl
    have := List.of_mem_filter hl
    simpa using this

/-! ### Classifier lemmas -/

/-- The common tail of the two decision-table readings (heuristics 3-5 of the
source vs the claim's wording): `0 < length` and `not isEmpty` coincide. -/
theorem wrapperTail_eq (n : Node) (rows : List Node) :
    (if 0 < (directCells n).length &&
        (directCells n).all (fun c => (findInList (tagIs (S "table")) (childrenOf c)).isSome) then
      true
     else if (rows.map fun r => (directCells r).length).sum < 4 &&
        !contains_tabular_data_pattern n then true
     else false) = wrapperTailSpec n rows := by
  unfold wrapperTailSpec
  cases h : directCells n with
  | nil => simp [h]
  | cons c cl => simp [h]

theorem wrapper_eq_decision (a : List (Str × Str)) (cs : List Node) :
    is_wrapper_table (.element (S "table") a cs) =
      wrapperDecisionSpec (.element (S "table") a cs) := by
  have htail := wrapperTail_eq (.element (S "table") a cs)
  have hchild : childrenOf (.element (S "table") a cs) = cs := rfl
  rcases hfind : findInList (tagIs (S "tbody")) cs with _ | tb
  · have hrw : rowsOfWrapper (.element (S "table") a cs) = List.filter (tagIs (S "tr")) cs := by
      simp [rowsOfWrapper, childrenOf, hfind]
    simp only [is_wrapper_table, wrapperDecisionSpec, hchild, hfind, hrw]
    generalize List.filter (tagIs (S "tr")) cs = rows
    rcases rows with _ | ⟨r, _ | ⟨r2, rs⟩⟩
    · simp
    · simp only [List.length_cons, List.length_nil, List.isEmpty_cons]
      rw [← htail [r]]
      by_cases hcell : (directCells r).length ≤ 1 <;> simp [hcell, childrenOf]
    · simp only [List.length_cons, List.isEmpty_cons]
      rw [← htail (r :: r2 :: rs)]
      simp [childrenOf]
  · have hrw : rowsOfWrapper (.element (S "table") a cs) =
        List.filter (tagIs (S "tr")) (childrenOf tb) := by
      simp [rowsOfWrapper, childrenOf, hfind]
    simp only [is_wrapper_table, wrapperDecisionSpec, hchild, hfind, hrw]
    generalize List.filter (tagIs (S "tr")) (childrenOf tb) = rows
    rcases rows with _ | ⟨r, _ | ⟨r2, rs⟩⟩
    · simp
    · simp only [List.length_cons, List.length_nil, List.isEmpty_cons]
      rw [← htail [r]]
      by_cases hcell : (directCells r).length ≤ 1 <;> simp [hcell, childrenOf]
    · simp only [List.length_cons, List.isEmpty_cons]
      rw [← htail (r :: r2 :: rs)]
      simp [childrenOf]

theorem pattern_iff_disjunction (n : Node) :
    contains_tabular_data_pattern n = true ↔
      (5 < (findallNumbers (textOf n)).length) ∨
      (searchDate (textOf n) = true ∨ searchTime (textOf n) = true ∨
        containsSub (S "AM") (textOf n) = true ∨ containsSub (S "PM") (textOf n) = true) ∨
      (3 ≤ (rowsOfPattern n).length ∧
        ((rowsOfPattern n).map fun r => (directCells r).length).dedup.length ≤ 2 ∧
        2 ≤ ((rowsOfPattern n).map fun r => (directCells r).length).foldl max 0) ∨
      ((findInList (tagIs (S "th")) (childrenOf n)).isSome = true) := by
  simp only [contains_tabular_data_pattern]
  split_ifs with h1 h2 h3 h4 <;>
    simp_all [Bool.or_eq_true, Bool.and_eq_true, decide_eq_true_eq] <;> tauto

/-! ### Attribute-pass lemmas -/

def attrsOfN : Node → List (Str × Str)
  | .element _ a _ => a
  | _ => []

/-- `attrs_to_keep` is the restriction of the attribute mapping to the keys
`colspan` and `rowspan`. -/
theorem attrs_to_keep_lookup (a : List (Str × Str)) (k : Str) :
    (attrs_to_keep a).lookup k =
      if k = S "colspan" ∨ k = S "rowspan" then a.lookup k else none := by
  have hne : (S "colspan" == S "rowspan") = false := by decide
  have hne2 : (S "rowspan" == S "colspan") = false := by decide
  by_cases hc : k = S "colspan"
  · subst hc
    cases hcol : a.lookup (S "colspan") <;> cases hrow : a.lookup (S "rowspan") <;>
      simp [attrs_to_keep, hcol, hrow, List.lookup, hne]
  · by_cases hr : k = S "rowspan"
    · subst hr
      cases hcol : a.lookup (S "colspan") <;> cases hrow : a.lookup (S "rowspan") <;>
        simp [attrs_to_keep, hcol, hrow, List.lookup, hne2]
    · have hkc : (k == S "colspan") = false := beq_eq_false_iff_ne.mpr hc
      have hkr : (k == S "rowspan") = false := beq_eq_false_iff_ne.mpr hr
      cases hcol : a.lookup (S "colspan") <;> cases hrow : a.lookup (S "rowspan") <;>
        simp [attrs_to_keep, hcol, hrow, List.lookup, hkc, hkr, hc, hr]

theorem allElemsL_append (xs ys : List Node) :
    allElemsL (xs ++ ys) = allElemsL xs ++ allElemsL ys := by
  induction xs with
  | nil => simp [allElemsL]
  | cons x xs ih => simp [allElemsL, ih]

/-- After `simplify_html`'s attribute stripping, every element of the tree has
an empty attribute mapping. -/
theorem stripAll_attrs_empty :
    ∀ n, ∀ m ∈ allElemsN (mapAttrsN (fun _ _ => []) n), attrsOfN m = [] := by
  intro n
  induction n using nodeInd with
  | htext s => intro m hm; simp [mapAttrsN, allElemsN] at hm
  | hcom s => intro m hm; simp [mapAttrsN, allElemsN] at hm
  | hpi s => intro m hm; simp [mapAttrsN, allElemsN] at hm
  | hdecl s => intro m hm; simp [mapAttrsN, allElemsN] at hm
  | helem t a cs ih =>
    intro m hm
    simp only [mapAttrsN, allElemsN] at hm
    rcases List.mem_cons.mp hm with h | h
    · subst h; rfl
    · clear hm
      induction cs with
      | nil => simp [mapAttrsL, allElemsL] at h
      | cons x xs ihl =>
        simp only [mapAttrsL, allElemsL] at h
        rcases List.mem_append.mp h with h1 | h1
        · exact ih x (List.mem_cons_self x xs) m h1
        · exact ihl (fun c hcc => ih c (List.mem_cons_of_mem x hcc)) h1

theorem stripAllL_attrs_empty (ns : List Node) :
    ∀ m ∈ allElemsL (stripAttrsAllL ns), attrsOfN m = [] := by
  induction ns with
  | nil => intro m hm; simp [stripAttrsAllL, mapAttrsL, allElemsL] at hm
  | cons n ns ih =>
    intro m hm
    simp only [stripAttrsAllL, mapAttrsL, allElemsL] at hm ih ⊢
    rcases List.mem_append.mp hm with h | h
    · exact stripAll_attrs_empty n m h
    · exact ih m h

/-! ### Row-selection lemmas (claims C9, C10) -/

theorem wrapper_eq_noH3 (a : List (Str × Str)) (cs : List Node)
    (h : ∀ c ∈ cs, (tagIs (S "td") c || tagIs (S "th") c) = false) :
    directCells (.element (S "table") a cs) = [] ∧
    is_wrapper_table (.element (S "table") a cs) =
      is_wrapper_table_noH3 (.element (S "table") a cs) := by
  have hcells : directCells (.element (S "table") a cs) = [] := by
    simp only [directCells, childrenOf]
    exact List.filter_eq_nil.mpr fun c hc => by simp [h c hc]
  refine ⟨hcells, ?_⟩
  simp only [is_wrapper_table, is_wrapper_table_noH3, hcells]
  simp

theorem rows_from_find (t : Str) (a : List (Str × Str)) (cs : List Node) :
    (∀ tb, findInList (tagIs (S "tbody")) cs = some tb →
      rowsOfWrapper (.element t a cs) = (childrenOf tb).filter (tagIs (S "tr")) ∧
      rowsOfPattern (.element t a cs) = (childrenOf tb).filter (tagIs (S "tr"))) ∧
    (findInList (tagIs (S "tbody")) cs = none →
      rowsOfWrapper (.element t a cs) = cs.filter (tagIs (S "tr")) ∧
      rowsOfPattern (.element t a cs) = cs.filter (tagIs (S "tr"))) := by
  constructor
  · intro tb htb
    constructor <;> simp [rowsOfWrapper, rowsOfPattern, childrenOf, htb]
  · intro hnone
    constructor <;> simp [rowsOfWrapper, rowsOfPattern, childrenOf, hnone]

/-! ### Concrete inputs used by counterexamples and witnesses -/

def exC1Input : String := "<div><p>a</p><span> </span></div>"

def tdEmpty : Node := .element (S "td") [] []

def trTwoCells : Node := .element (S "tr") [] [tdEmpty, tdEmpty]

def tableFourCells : Node := .element (S "table") [] [trTwoCells, trTwoCells]

def exC6 : List Node := [.element (S "div") [] [tableFourCells, tableFourCells]]

def trA : Node := .element (S "tr") [] [.element (S "td") [] [.text (S "a")]]

def trB : Node := .element (S "tr") [] [.element (S "td") [] [.text (S "b")]]

def nestedTbody : Node := .element (S "tbody") [] [trB]

def nestedTable : Node := .element (S "table") [] [nestedTbody]

/-- An outer table with a direct `tr` row and no `tbody` of its own, whose
nested table carries the only `tbody`. -/
def outerChildren : List Node := [trA, nestedTable]

/-- The C6 scenario also goes through the whole pipeline: two four-cell data
tables inside a div with no visible text are destroyed by the prune pass. -/
example :
    (clean_word_html
      "<div><table><tr><td></td><td></td></tr><tr><td></td><td></td></tr></table><table><tr><td></td><td></td></tr><tr><td></td><td></td></tr></table></div>"
      true).1 = "" := by decide

/-! ### Claims -/

/-- C1, counterexample: `clean_word_html` is not idempotent on its string
output.  On `<div><p>a</p><span> </span></div>` the first clean prunes the
whitespace-only span *after* the collapse sweep has already run, leaving
`<div><p>a</p></div>`; re-cleaning collapses the now-redundant div to
`<p>a</p>`, a different string. -/
theorem c1_counterexample :
    (clean_word_html (clean_word_html exC1Input true).1 true).1 ≠
      (clean_word_html exC1Input true).1 := by decide

/-- C1, amended: `clean_word_html` is not idempotent on its string output —
pruning can expose a redundant wrapper after the single collapse sweep has
finished, and only a second call collapses it.  The collapse pass itself *is*
idempotent at the tree level, for any exemption set: re-running the sweep on
its own output changes nothing. -/
theorem c1_collapse_pass_idempotent (skip : Str → Bool) (ns : List Node) :
    collapseL skip (collapseL skip ns) = collapseL skip ns :=
  collapse_of_noRedundantL skip _ (collapse_noRedundantL skip ns)

/-- C2: the claim demands `analyze_cleaning("", "")` return a report with a
sentinel `reduction_percent`, and the spec (§4.4, §7) makes this an explicit
requirement; the code divides by `len(original_html)` unguarded and raises
`ZeroDivisionError`, modelled here as `none`. -/
theorem c2_analyze_cleaning_empty_faults : analyze_cleaning "" "" = none := rfl

/-- C3, counterexample: the tree serialized by `clean_word_html` on
`<div><p>a</p><span> </span></div>` contains a redundant wrapper — the div has
exactly one element child (`<p>a</p>`) with the same normalized text — because
the empty-tag pruning that removed the span runs *after* the single collapse
sweep. -/
theorem c3_counterexample :
    hasRedundantL skipTableTags (cleanWordTreeCount (parseHtml exC1Input) true).1 = true := by
  decide

/-- C3, amended: the collapse pass reaches its own fixed point in the single
sweep the source performs — immediately after the pass, no element outside the
exemption set has exactly one element child with equal normalized text — but
the subsequent prune pass of `clean_word_html` can reintroduce such a wrapper,
so the serialized tree may contain one (see the counterexample). -/
theorem c3_collapse_sweep_fixed_point (skip : Str → Bool) (ns : List Node) :
    hasRedundantL skip (collapseL skip ns) = false :=
  collapse_noRedundantL skip ns

/-- C4: `is_wrapper_table` implements the claimed decision table, evaluated in
order with the first match winning: zero rows (rows preferring a found tbody's
direct `tr` children); else a single row with at most one cell; else direct
cells all containing a nested table; else fewer than 4 total cells without
tabular data patterns; else a data table, kept. -/
theorem c4_wrapper_decision_table (a : List (Str × Str)) (cs : List Node) :
    is_wrapper_table (.element (S "table") a cs) =
      wrapperDecisionSpec (.element (S "table") a cs) :=
  wrapper_eq_decision a cs

/-- C5: `contains_tabular_data_pattern` returns true exactly when (a) more
than 5 numeric tokens occur in the table's text, or (b) a date/time pattern or
an AM/PM token occurs, or (c) at least 3 rows exist with at most 2 distinct
per-row cell counts and a maximum count of at least 2, or (d) a `th` exists
anywhere in the table. -/
theorem c5_pattern_iff (n : Node) :
    contains_tabular_data_pattern n = true ↔
      (5 < (findallNumbers (textOf n)).length) ∨
      (searchDate (textOf n) = true ∨ searchTime (textOf n) = true ∨
        containsSub (S "AM") (textOf n) = true ∨ containsSub (S "PM") (textOf n) = true) ∨
      (3 ≤ (rowsOfPattern n).length ∧
        ((rowsOfPattern n).map fun r => (directCells r).length).dedup.length ≤ 2 ∧
        2 ≤ ((rowsOfPattern n).map fun r => (directCells r).length).foldl max 0) ∨
      ((findInList (tagIs (S "th")) (childrenOf n)).isSome = true) :=
  pattern_iff_disjunction n

/-- C6, counterexample: table-structure tags *can* be removed by the prune
pass — not directly, but as descendants of a pruned blank non-table element.
A div holding two four-cell data tables with no text is blank, so the pass
decomposes it, destroying both tables. -/
theorem c6_counterexample :
    countTablesL (prunePass skipTableTags exC6) = 0 ∧ countTablesL exC6 = 2 := by decide

/-- C6, amended: the prune loop terminates — its result is a fixed point of
the sweep — and on exit no non-exempt element with blank visible text remains;
the pass never removes a table-structure element *directly* (a forest of only
table-structure elements and non-elements is returned unchanged, however
empty), but a table inside a pruned blank non-table element is removed with it
(see the counterexample). -/
theorem c6_prune_pass_properties (ns : List Node) :
    sweepL skipTableTags (prunePass skipTableTags ns) = prunePass skipTableTags ns ∧
    hasBlankElemL skipTableTags (prunePass skipTableTags ns) = false ∧
    (allTableStructL ns = true → prunePass skipTableTags ns = ns) := by
  rw [prunePass_eq_sweep]
  exact ⟨sweep_idem skipTableTags ns, sweep_noBlankL skipTableTags ns,
    fun h => sweep_of_allTableStructL ns h⟩

theorem c6_prune_pass_properties_witness :
    allTableStructL [tableFourCells] = true ∧
    prunePass skipTableTags [tableFourCells] = [tableFourCells] :=
  ⟨by decide, (c6_prune_pass_properties [tableFourCells]).2.2 (by decide)⟩

/-- C7, counterexample: in `clean_html` (i.e. `simplify_html`), the
strip-attributes pass sets `tag.attrs = {}` with no exception, so a `colspan`
is *not* preserved: cleaning `<table><tr><td colspan="2">x</td></tr></table>`
with `keep_attr=False` yields `<td>x</td>` with the colspan gone (the table,
tr wrappers collapse since `simplify_html` has no table exemption). -/
theorem c7_counterexample :
    clean_html "<table><tr><td colspan=\"2\">x</td></tr></table>" false = "<td>x</td>" ∧
    containsSub (S "colspan") (S "<td>x</td>") = false := by decide

/-- C7, amended: when `keep_attr` is false, `clean_word_html`'s pass replaces
every element's attributes with exactly the restriction of the previous
mapping to `colspan` and `rowspan` (values preserved); `clean_html`'s pass
instead empties every element's attribute mapping entirely, preserving
nothing. -/
theorem c7_strip_attributes :
    (∀ (a : List (Str × Str)) (k : Str),
      (attrs_to_keep a).lookup k =
        if k = S "colspan" ∨ k = S "rowspan" then a.lookup k else none) ∧
    (∀ ns : List Node, ∀ m ∈ allElemsL (stripAttrsAllL ns), attrsOfN m = []) :=
  ⟨attrs_to_keep_lookup, stripAllL_attrs_empty⟩

theorem c7_strip_attributes_witness :
    attrsOfN (.element (S "td") [] [.text (S "x")]) = [] :=
  c7_strip_attributes.2 [.element (S "td") [(S "colspan", S "2")] [.text (S "x")]]
    (.element (S "td") [] [.text (S "x")]) (List.Mem.head _)

/-- C8, counterexample: `clean_html` removes declarations *after* its
blank-line filter, so deleting a `<!DOCTYPE html>` that sat on its own line
leaves an empty line in the returned string, violating the claim. -/
theorem c8_counterexample :
    splitNl (clean_html "<p>a</p>\n<!DOCTYPE html>\n<p>b</p>" false).data =
      [S "<p>a</p>", [], S "<p>b</p>"] := by decide

/-- C8, amended: `clean_word_html`'s output has no blank or whitespace-only
line (its blank-line filter is the final step, lines rejoined with single
newlines) unless the output is empty; the declaration substitutions remove
only single-line matches in one left-to-right pass, so a declaration spanning
a newline or reassembled by a deletion can survive, and `clean_html` — which
filters lines *before* removing declarations — can return blank lines (see
the counterexample). -/
theorem c8_word_output_lines (html : String) (keep_attr : Bool) :
    (clean_word_html html keep_attr).1 = "" ∨
    ∀ l ∈ splitNl ((clean_word_html html keep_attr).1).data, pyBlank l = false := by
  rcases h : cleanWordTreeCount (parseHtml html) keep_attr with ⟨ns, removed⟩
  have hout : (clean_word_html html keep_attr).1 =
      String.mk (dropBlankLines (cleanXmlStr (renderL ns))) := by
    simp [clean_word_html, h]
  rw [hout]
  rcases dropBlankLines_lines (cleanXmlStr (renderL ns)) with hnil | hlines
  · left
    rw [hnil]
  · right
    intro l hl
    exact hlines l (by simpa using hl)

theorem c8_word_output_lines_witness : pyBlank (S "<p>Text</p>") = false :=
  ((c8_word_output_lines "<!-- c --><p>Text</p>" true).resolve_left (by decide))
    (S "<p>Text</p>") (by decide)

/-- C9: heuristic 3 of `is_wrapper_table` inspects only `td`/`th` elements
that are direct children of the table itself; when every cell sits inside a
`tr` row — so no direct child of the table is a cell — the heuristic finds
zero direct cells, its guard fails, and the classification equals the decision
table without heuristic 3. -/
theorem c9_h3_direct_children_only (a : List (Str × Str)) (cs : List Node)
    (h : ∀ c ∈ cs, (tagIs (S "td") c || tagIs (S "th") c) = false) :
    directCells (.element (S "table") a cs) = [] ∧
    is_wrapper_table (.element (S "table") a cs) =
      is_wrapper_table_noH3 (.element (S "table") a cs) :=
  wrapper_eq_noH3 a cs h

theorem c9_h3_direct_children_only_witness :
    directCells (.element (S "table") [] [trTwoCells, trTwoCells]) = [] ∧
    is_wrapper_table (.element (S "table") [] [trTwoCells, trTwoCells]) =
      is_wrapper_table_noH3 (.element (S "table") [] [trTwoCells, trTwoCells]) :=
  c9_h3_direct_children_only [] [trTwoCells, trTwoCells] (by decide)

/-- C10: both `is_wrapper_table` and `contains_tabular_data_pattern` take
their row set from the first `tbody` found by the recursive pre-order
descendant search `table.find('tbody')` — not only from direct children — and
fall back to the table's own direct `tr` children only when no `tbody` occurs
anywhere in the subtree. -/
theorem c10_rows_from_recursive_find (t : Str) (a : List (Str × Str)) (cs : List Node) :
    (∀ tb, findInList (tagIs (S "tbody")) cs = some tb →
      rowsOfWrapper (.element t a cs) = (childrenOf tb).filter (tagIs (S "tr")) ∧
      rowsOfPattern (.element t a cs) = (childrenOf tb).filter (tagIs (S "tr"))) ∧
    (findInList (tagIs (S "tbody")) cs = none →
      rowsOfWrapper (.element t a cs) = cs.filter (tagIs (S "tr")) ∧
      rowsOfPattern (.element t a cs) = cs.filter (tagIs (S "tr"))) :=
  rows_from_find t a cs

/-- The outer table has a direct `tr` row and no `tbody` of its own, yet its
row set comes from the nested table's `tbody` (`[trB]`, not `[trA]`). -/
theorem c10_rows_from_recursive_find_witness :
    (rowsOfWrapper (.element (S "table") [] outerChildren) =
        (childrenOf nestedTbody).filter (tagIs (S "tr")) ∧
      rowsOfPattern (.element (S "table") [] outerChildren) =
        (childrenOf nestedTbody).filter (tagIs (S "tr"))) ∧
    (childrenOf nestedTbody).filter (tagIs (S "tr")) = [trB] :=
  ⟨(c10_rows_from_recursive_find (S "table") [] outerChildren).1 nestedTbody rfl, rfl⟩

end DoclingClean
